import Mathlib

/-!
Shallow embedding of the ChemoCare recurrence/anchor engine (src/src/App.js).

Modelling conventions:
* Calendar dates are whole-day counts (`Int`).  `parseISODate` / `toISODate`
  are mutually inverse bijections between ISO strings and local midnights, so
  in the model an ISO date string is identified with the day it denotes, and
  both conversions are the identity.  `addDays` / `diffDays` (App.js lines
  29-30) become integer addition / subtraction.
* A JS `Date` carrying a time of day (used by the event materializer and the
  ICS export) is a `DT`: a day plus minutes past local midnight.  The model is
  DST-free, matching the spec's "local calendar-day semantics, no timezones".
* JS `undefined` / absent optional values are `Option.none`; an empty
  time-of-day string `""`, being falsy exactly like `undefined` everywhere it
  is consulted, is also `none`.
* `Array.prototype.sort` (stable, ES2019) with the comparator
  `(a, b) => a.index - b.index` is modelled by the stable
  `List.insertionSort` with the key order `index ≤ index`.
* Code that would throw on malformed data (`computeTreatmentDate` reads
  `anchors[0].index`, which throws on an empty anchor list) returns `Option`.
* Loops with an iteration bound (`maxCount`, the freeze safety cap of 1000)
  are structural recursion on the remaining iteration count.
-/

namespace ChemoCare

/-! ### Data model -/

/-- An override ("move"): occurrence `index` is pinned to the date denoted by
`newDateISO` (App.js stores the ISO string; here the day it parses to). -/
structure Move where
  index : Int
  newDateISO : Int
deriving DecidableEq, Repr

/-- A derived anchor `{index, date}` (App.js `buildAnchors`). -/
structure Anchor where
  index : Int
  date : Int
deriving DecidableEq, Repr

/-- The anchor series: sorted deduplicated anchors plus the frequency. -/
structure Series where
  anchors : List Anchor
  frequencyDays : Int
deriving DecidableEq, Repr

/-- A date-time: local day plus minutes past midnight (DST-free model of a JS
`Date` as used by the engine). -/
structure DT where
  day : Int
  mins : Nat
deriving DecidableEq, Repr

/-- Per-cycle action rule.  `time = none` models both an absent `time` field
and the empty string (both falsy in every test the engine performs);
`enabled = none` models an absent (`undefined`) `enabled` field. -/
structure Rule where
  id : String
  day : Int
  title : String
  notes : String
  time : Option (Nat × Nat)
  enabled : Option Bool
deriving DecidableEq, Repr

inductive OneOffKind where
  | appointment
  | med
deriving DecidableEq, Repr

/-- A standalone one-off item. -/
structure OneOff where
  id : String
  dateISO : Int
  time : Option (Nat × Nat)
  title : String
  notes : String
  kind : OneOffKind
deriving DecidableEq, Repr

/-- The plan ("settings" object). -/
structure Settings where
  startDate : Int
  frequencyDays : Int
  cycles : Option Int
  medRules : List Rule
  oneOffs : List OneOff
  calendarName : String
deriving DecidableEq, Repr

/-! ### Date utilities (App.js lines 27-36) -/

/-- `addDays(date, days)` at day granularity. -/
def addDays (d days : Int) : Int := d + days

/-- `diffDays(a, b)`: whole days from `a` to `b`. -/
def diffDays (a b : Int) : Int := b - a

/-- `applyTime(date, hhmm)`: overlay a time of day; falsy `hhmm` leaves the
date unchanged. -/
def applyTime (dt : DT) (hhmm : Option (Nat × Nat)) : DT :=
  match hhmm with
  | none => dt
  | some (h, m) => ⟨dt.day, h * 60 + m⟩

/-! ### Day helpers (App.js lines 38-44) -/

/-- `dayToOffset(day)`: hospital day indicator to calendar offset. -/
def dayToOffset (day : Int) : Int := if 1 ≤ day then day - 1 else day

/-- Raw input to `normalizeDayInput`: either something that reads as a finite
number (directly, or after `parseInt` of its string form), or input whose
parse is `NaN`. -/
inductive DayInput where
  | intVal (n : Int)
  | nonNumeric
deriving DecidableEq, Repr

/-- `normalizeDayInput(raw)`: `NaN` parses become 1, a day indicator of 0
becomes 1, everything else is kept. -/
def normalizeDayInput : DayInput → Int
  | .intVal n => if n = 0 then 1 else n
  | .nonNumeric => 1

/-- The plan-editor save handler (App.js line 1263) re-normalizes the `day`
field of every rule before persisting the settings. -/
def savePlanMedRules (rules : List Rule) : List Rule :=
  rules.map fun r => { r with day := normalizeDayInput (.intVal r.day) }

/-! ### Stable sorts -/

/-- Key order used by the JS comparator `(a, b) => a.index - b.index` on
moves. -/
def moveLE (a b : Move) : Prop := a.index ≤ b.index

instance : DecidableRel moveLE := fun a b => by unfold moveLE; infer_instance

instance : IsTotal Move moveLE := ⟨fun a b => Int.le_total a.index b.index⟩

instance : IsTrans Move moveLE := ⟨fun _ _ _ => Int.le_trans⟩

/-- Key order used by the JS comparator on anchors. -/
def anchorLE (a b : Anchor) : Prop := a.index ≤ b.index

instance : DecidableRel anchorLE := fun a b => by unfold anchorLE; infer_instance

instance : IsTotal Anchor anchorLE := ⟨fun a b => Int.le_total a.index b.index⟩

instance : IsTrans Anchor anchorLE := ⟨fun _ _ _ => Int.le_trans⟩

/-- Stable ascending sort of moves by index. -/
def sortMoves (moves : List Move) : List Move := List.insertionSort moveLE moves

/-- Stable ascending sort of anchors by index. -/
def sortAnchors (anchors : List Anchor) : List Anchor :=
  List.insertionSort anchorLE anchors

/-! ### Anchor series builder (App.js lines 282-297) -/

/-- Collapse runs of adjacent equal indices, keeping the last element of each
run — exactly the dedup loop of `buildAnchors`, which compares each element
with the most recently kept one and overwrites it on an index match. -/
def dedupKeepLast : List Anchor → List Anchor
  | [] => []
  | [a] => [a]
  | a :: b :: rest =>
    if a.index = b.index then dedupKeepLast (b :: rest)
    else a :: dedupKeepLast (b :: rest)

/-- An override, viewed as an anchor. -/
def toAnchor (m : Move) : Anchor := ⟨m.index, m.newDateISO⟩

/-- `buildAnchors(startDateISO, frequencyDays, moves)`. -/
def buildAnchors (startDateISO : Int) (frequencyDays : Int) (moves : List Move) :
    Series :=
  let anchors := Anchor.mk 0 startDateISO :: (sortMoves moves).map toAnchor
  ⟨dedupKeepLast (sortAnchors anchors), frequencyDays⟩

/-! ### Occurrence date resolver (App.js lines 298-309) -/

/-- The anchor-selection loop of `computeTreatmentDate`: keep the last anchor
whose index is `≤ occ`, breaking at the first larger one. -/
def findAnchor : List Anchor → Int → Anchor → Anchor
  | [], _, cur => cur
  | a :: rest, occ, cur =>
    if a.index ≤ occ then findAnchor rest occ a else cur

/-- `computeTreatmentDate(series, occurrenceIndex)`; `none` models the
`TypeError` the JS throws on an empty anchor list (`anchors[0]` is
`undefined`). -/
def computeTreatmentDate (series : Series) (occurrenceIndex : Int) : Option Int :=
  match series.anchors with
  | [] => none
  | a0 :: rest =>
    let anchor := findAnchor (a0 :: rest) occurrenceIndex a0
    some (addDays anchor.date ((occurrenceIndex - anchor.index) * series.frequencyDays))

/-! ### Windowed enumerator (App.js lines 310-331) -/

/-- Loop body of `iterateTreatments`: `fuel` is the number of loop iterations
left (`i < startIndex + maxCount`), `i` the current index, `count` the number
of yields so far. -/
def iterLoop (series : Series) (fromDate toDate : Option Int)
    (cyclesCap : Option Int) (maxCount : Nat) :
    Nat → Int → Nat → Option (List (Int × Int))
  | 0, _, _ => some []
  | fuel + 1, i, count =>
    if cyclesCap.any (fun c => decide (c ≤ i)) then some []
    else
      match computeTreatmentDate series i with
      | none => none
      | some d =>
        if toDate.any (fun td => decide (td < d)) then some []
        else if fromDate.any (fun fd => decide (d < fd)) then
          iterLoop series fromDate toDate cyclesCap maxCount fuel (i + 1) count
        else if maxCount ≤ count + 1 then some [(i, d)]
        else
          (iterLoop series fromDate toDate cyclesCap maxCount fuel (i + 1)
              (count + 1)).map
            (fun l => (i, d) :: l)

/-- `iterateTreatments(series, {fromDate, toDate, maxCount, cyclesCap})`, the
yielded `{index, date}` pairs in order.  The start index is estimated by
inverse projection from occurrence 0 (`Math.floor` of the day ratio is `fdiv`
for a nonzero frequency), backed off by 3 and clamped to `≥ 0`. -/
def iterateTreatments (series : Series) (fromDate toDate : Option Int)
    (maxCount : Nat := 1000) (cyclesCap : Option Int) :
    Option (List (Int × Int)) :=
  match computeTreatmentDate series 0 with
  | none => none
  | some first =>
    let startIndex : Int :=
      match fromDate with
      | none => 0
      | some fd => max 0 (Int.fdiv (diffDays first fd) series.frequencyDays - 3)
    iterLoop series fromDate toDate cyclesCap maxCount maxCount startIndex 0

/-- Modelled from the spec: the reference enumeration of §4.4, "identical
results to scanning from index 0" — the same loop started at index 0 instead
of the estimated start index. -/
def iterateFromZero (series : Series) (fromDate toDate : Option Int)
    (maxCount : Nat := 1000) (cyclesCap : Option Int) :
    Option (List (Int × Int)) :=
  match computeTreatmentDate series 0 with
  | none => none
  | some _ => iterLoop series fromDate toDate cyclesCap maxCount maxCount 0 0

/-! ### Move / freeze merger (App.js lines 374-395, 1094) -/

/-- `Map.prototype.set` on an insertion-ordered association list. -/
def mapSet (l : List Move) (k : Int) (v : Int) : List Move :=
  match l with
  | [] => [⟨k, v⟩]
  | m :: rest => if m.index = k then ⟨k, v⟩ :: rest else m :: mapSet rest k v

/-- `mergeMoves(base, add)`: last write wins per index, result sorted by
index. -/
def mergeMoves (base add : List Move) : List Move :=
  sortMoves ((base ++ add).foldl (fun acc mv => mapSet acc mv.index mv.newDateISO) [])

/-- Loop body of `freezePastMoves`; `fuel` is the remaining iteration budget
out of the safety cap of 1000. -/
def freezeLoop (series : Series) (cutoffDate : Int) (cyclesCap : Option Int) :
    Nat → Int → Option (List Move)
  | 0, _ => some []
  | fuel + 1, i =>
    if cyclesCap.any (fun c => decide (c ≤ i)) then some []
    else
      match computeTreatmentDate series i with
      | none => none
      | some d =>
        if d ≤ cutoffDate then
          (freezeLoop series cutoffDate cyclesCap fuel (i + 1)).map
            (fun l => ⟨i, d⟩ :: l)
        else some []

/-- `freezePastMoves(series, cutoffDate, cyclesCap)` (App.js lines 382-395).
The pushed override stores `toISODate(d)`, which in the day model is `d`
itself. -/
def freezePastMoves (series : Series) (cutoffDate : Int)
    (cyclesCap : Option Int) : Option (List Move) :=
  freezeLoop series cutoffDate cyclesCap 1000 0

/-- The single-move "Apply move" handler (App.js line 1094): drop any existing
override for the index, append the new one, sort by index. -/
def upsertMove (moves : List Move) (k : Int) (newDateISO : Int) : List Move :=
  sortMoves (moves.filter (fun m => !(m.index == k)) ++ [⟨k, newDateISO⟩])

/-! ### Event materializer (App.js lines 332-372) -/

/-- Event payload: the discriminating `type` field together with the fields
only present for that type (`index` for treatments and actions, the
originating `rule` / `item` reference). -/
inductive EvKind where
  | treatment (index : Int)
  | action (index : Int) (rule : Rule)
  | oneoff (item : OneOff)
deriving DecidableEq, Repr

/-- A materialized event. -/
structure Event where
  id : String
  title : String
  kind : EvKind
  date : DT
deriving DecidableEq, Repr

/-- A date (midnight) as a `DT`. -/
def dtOfDay (d : Int) : DT := ⟨d, 0⟩

/-- The rule-skip test in `buildEvents` (line 343):
`if (!rule.enabled && rule.enabled !== undefined) continue;` — a rule is kept
unless `enabled` is present and falsy. -/
def ruleKept (r : Rule) : Bool := !(r.enabled == some false)

/-- The treatment event pushed for occurrence `i` on day `d` (line 341). -/
def treatmentEvent (i d : Int) : Event :=
  ⟨"treat-" ++ toString i, "Treatment #" ++ toString (i + 1), .treatment i,
    dtOfDay d⟩

/-- The action event pushed for occurrence `i` on day `d` under rule `r`
(lines 345-355); JS `rule.title || ...` falls back on an empty title. -/
def actionEvent (i d : Int) (r : Rule) : Event :=
  ⟨"act-" ++ toString i ++ "-" ++ r.id,
    (if r.title = "" then "Dag " ++ toString r.day ++ ": actie" else r.title),
    .action i r,
    applyTime (dtOfDay (addDays d (dayToOffset r.day))) r.time⟩

/-- The event pushed for a one-off item (lines 359-369). -/
def oneOffEvent (o : OneOff) : Event :=
  ⟨"one-" ++ o.id,
    (if o.title = "" then
        (match o.kind with
          | .med => "Medication"
          | .appointment => "Appointment")
      else o.title),
    .oneoff o,
    applyTime (dtOfDay o.dateISO) o.time⟩

/-- All events pushed for one enumerated occurrence: the treatment event, then
one action event per kept rule, in rule order. -/
def occurrenceEvents (settings : Settings) (i d : Int) : List Event :=
  treatmentEvent i d :: (settings.medRules.filter ruleKept).map (actionEvent i d)

/-- Strict `<` on date-times; the JS comparator subtracts millisecond values,
which on (day, minutes) is the lexicographic order. -/
def dtLT (a b : DT) : Bool :=
  a.day < b.day || (a.day == b.day && a.mins < b.mins)

/-- Is this a treatment event? -/
def isTreatmentEv (e : Event) : Bool :=
  match e.kind with
  | .treatment _ => true
  | _ => false

/-- Order modelling the (stable) JS sort with comparator
`(a, b) => a.date - b.date || (a.type === "treatment" ? -1 : 1)`: `a` sorts no
later than `b` when the comparator returns `≤ 0`.  Between two equal-date
non-treatment events that comparator is inconsistent (returns 1 both ways), so
there the engine's tie order is implementation-defined; no claim below depends
on tie order. -/
def evLE (a b : Event) : Prop :=
  dtLT a.date b.date = true ∨ (a.date = b.date ∧ isTreatmentEv a = true)

instance : DecidableRel evLE := fun a b => by unfold evLE; infer_instance

/-- The occurrences enumerated by `buildEvents` for the given clock reading.
`monthStart` is the (day of the) first of the current month — the only datum
`buildEvents` derives from `new Date()`.  The `getD []` is unreachable: on a
`buildAnchors` series the enumerator never fails (`iterateTreatments_buildAnchors_isSome`
below). -/
def buildEventsOccs (s : Settings) (moves : List Move)
    (monthsAhead monthStart : Int) : List (Int × Int) :=
  (iterateTreatments (buildAnchors s.startDate s.frequencyDays moves)
      (some (addDays monthStart (-7)))
      (some (addDays monthStart (monthsAhead * 31))) 1000 s.cycles).getD []

/-- `buildEvents(settings, moves, {monthsAhead})` (App.js lines 332-372).
`monthStart` makes explicit the reading of the ambient clock
(`new Date()` → first of current month). -/
def buildEvents (settings : Option Settings) (moves : List Move)
    (monthsAhead : Int := 12) (monthStart : Int) : List Event :=
  match settings with
  | none => []
  | some s =>
    List.insertionSort evLE
      ((buildEventsOccs s moves monthsAhead monthStart).flatMap
          (fun p => occurrenceEvents s p.1 p.2)
        ++ s.oneOffs.map oneOffEvent)

/-! ### ICS export (App.js lines 398-423) -/

/-- The two locales of the `STRINGS` table; `generateICS` reads the active one
from `localStorage` (ambient state, here an explicit parameter). -/
inductive Locale where
  | en
  | nl
deriving DecidableEq, Repr

/-- `STRINGS[locale].treatment`. -/
def trTreatment : Locale → String
  | .en => "Treatment"
  | .nl => "Behandeling"

/-- `STRINGS[locale].cycleWord(n)`. -/
def trCycleWord (loc : Locale) (n : Int) : String :=
  (match loc with
    | .en => "Cycle "
    | .nl => "Cyclus ") ++ toString n

/-- One line of the generated ICS document, with the date/time payloads kept
structured: `toICSDate` / `toICSTime` are injective digit renderings of the
civil date / time, so a line is identified with the data it renders.
`dtstartDate`/`dtendDate` are the `;VALUE=DATE` (whole-day) forms. -/
inductive ICSLine where
  | beginCalendar
  | versionLine
  | prodid
  | calname (name : String)
  | beginEvent
  | endEvent
  | endCalendar
  | uid (s : String)
  | dtstamp (day : Int)
  | dtstartDate (day : Int)
  | dtendDate (day : Int)
  | dtstartTimed (dt : DT)
  | dtendTimed (dt : DT)
  | summary (s : String)
  | description (s : String)
deriving DecidableEq, Repr

/-- The `DESCRIPTION` escaping `.replace(/\\n/g, "\\\\n")`: each literal
backslash-n pair gains one more backslash, scanning left to right. -/
def icsEscapeChars : List Char → List Char
  | [] => []
  | '\\' :: 'n' :: rest => '\\' :: '\\' :: 'n' :: icsEscapeChars rest
  | c :: rest => c :: icsEscapeChars rest

/-- String form of `icsEscapeChars`. -/
def icsEscape (s : String) : String := ⟨icsEscapeChars s.data⟩

/-- `new Date(dt.getTime() + 60*60*1000)`: one hour later (DST-free model). -/
def addMinutesDT (dt : DT) (k : Nat) : DT :=
  ⟨dt.day + ((dt.mins + k) / 1440 : Nat), (dt.mins + k) % 1440⟩

/-- The timed-block test of `generateICS` (line 408):
`(ev.type === "action" && ev.rule?.time) || (ev.type === "oneoff" && ev.item?.time)`. -/
def evTimed (ev : Event) : Bool :=
  match ev.kind with
  | .treatment _ => false
  | .action _ r => r.time.isSome
  | .oneoff o => o.time.isSome

/-- The `SUMMARY` of an event (line 405). -/
def evSummary (loc : Locale) (ev : Event) : String :=
  match ev.kind with
  | .treatment i => trTreatment loc ++ " #" ++ toString (i + 1)
  | _ => ev.title

/-- The `DESCRIPTION` of an event (line 406):
`t.cycleWord(ev.index+1)` for treatments, else `rule?.notes || item?.notes || ""`. -/
def evDescription (loc : Locale) (ev : Event) : String :=
  match ev.kind with
  | .treatment i => trCycleWord loc (i + 1)
  | .action _ r => r.notes
  | .oneoff o => o.notes

/-- The VEVENT block pushed for one event (lines 403-419).  `nowDay` is the
day of the ambient `new Date()` read for `DTSTAMP`. -/
def eventICSLines (loc : Locale) (nowDay : Int) (ev : Event) : List ICSLine :=
  if evTimed ev then
    [.beginEvent, .uid (ev.id ++ "@chemocare.local"), .dtstamp nowDay,
      .dtstartTimed ev.date, .dtendTimed (addMinutesDT ev.date 60),
      .summary (evSummary loc ev), .description (icsEscape (evDescription loc ev)),
      .endEvent]
  else
    [.beginEvent, .uid (ev.id ++ "@chemocare.local"), .dtstamp nowDay,
      .dtstartDate ev.date.day, .dtendDate (addDays ev.date.day 1),
      .summary (evSummary loc ev), .description (icsEscape (evDescription loc ev)),
      .endEvent]

/-- `generateICS(events, {calendarName})` (App.js lines 400-423), with the two
ambient reads (stored locale, current date for `DTSTAMP`) as explicit
parameters. -/
def generateICS (events : List Event) (calendarName : String := "ChemoCare")
    (loc : Locale) (nowDay : Int) : List ICSLine :=
  [.beginCalendar, .versionLine, .prodid, .calname calendarName]
    ++ events.flatMap (eventICSLines loc nowDay)
    ++ [.endCalendar]

/-! ### Auxiliary definitions used only to state and prove properties -/

/-- Strict index order on anchors (what the deduplicated series satisfies). -/
def anchorLT (a b : Anchor) : Prop := a.index < b.index

/-- The integers `a, a+1, …, b-1` in order (empty when `b ≤ a`). -/
def intRange (a b : Int) : List Int :=
  (List.range (b - a).toNat).map (fun k : Nat => a + (k : Int))

/-- For a series with no overrides: the first occurrence index whose date is
`≥ fd` (occurrence `j` falls on `s + j*f`). -/
def linLo (s f fd : Int) : Int := (fd - s - 1) / f + 1

/-- For a series with no overrides: the first occurrence index at which the
enumerator's walk stops — the cycle cap if that comes first, else the first
index whose date exceeds `td`. -/
def linStop (s f td : Int) (cap : Option Int) : Int :=
  match cap with
  | none => (td - s) / f + 1
  | some c => min c ((td - s) / f + 1)

/-! ## Helper lemmas

### Stable sort and filter commute -/

theorem orderedInsert_eq_cons {α : Type} (r : α → α → Prop) [DecidableRel r]
    (a : α) : ∀ (s : List α), (∀ c ∈ s, r a c) →
      List.orderedInsert r a s = a :: s
  | [], _ => rfl
  | c :: t, h => by
    rw [List.orderedInsert, if_pos (h c (List.mem_cons_self c t))]

theorem orderedInsert_filter {α : Type} (r : α → α → Prop) [DecidableRel r]
    [IsTrans α r] (p : α → Bool) (a : α) :
    ∀ (s : List α), List.Sorted r s →
      (List.orderedInsert r a s).filter p =
        if p a then List.orderedInsert r a (s.filter p) else s.filter p
  | [], _ => by
    by_cases hpa : p a = true <;>
      simp [List.orderedInsert, List.filter, hpa]
  | b :: t, hs => by
    have ht : List.Sorted r t := hs.of_cons
    by_cases hab : r a b
    · rw [List.orderedInsert, if_pos hab]
      by_cases hpa : p a = true
      · rw [if_pos hpa, List.filter_cons, if_pos hpa,
          orderedInsert_eq_cons r a ((b :: t).filter p)]
        intro c hc
        rcases List.mem_cons.1 (List.mem_of_mem_filter hc) with hc1 | hc2
        · exact hc1 ▸ hab
        · exact Trans.trans hab (List.rel_of_sorted_cons hs c hc2)
      · rw [if_neg hpa, List.filter_cons, if_neg hpa]
    · rw [List.orderedInsert, if_neg hab, List.filter_cons]
      by_cases hpb : p b = true
      · rw [if_pos hpb, List.filter_cons, if_pos hpb,
          orderedInsert_filter r p a t ht]
        by_cases hpa : p a = true
        · rw [if_pos hpa, if_pos hpa, List.orderedInsert, if_neg hab]
        · rw [if_neg hpa, if_neg hpa]
      · rw [if_neg hpb, List.filter_cons, if_neg hpb,
          orderedInsert_filter r p a t ht]

theorem insertionSort_filter {α : Type} (r : α → α → Prop) [DecidableRel r]
    [IsTotal α r] [IsTrans α r] (p : α → Bool) :
    ∀ (l : List α),
      (List.insertionSort r l).filter p = List.insertionSort r (l.filter p)
  | [] => rfl
  | a :: t => by
    rw [List.insertionSort,
      orderedInsert_filter r p a _ (List.sorted_insertionSort r t),
      insertionSort_filter r p t, List.filter_cons]
    by_cases hpa : p a = true
    · rw [if_pos hpa, if_pos hpa, List.insertionSort]
    · rw [if_neg hpa, if_neg hpa]

/-! ### Deduplication lemmas -/

theorem dedupKeepLast_subset : ∀ (l : List Anchor) {x : Anchor},
    x ∈ dedupKeepLast l → x ∈ l
  | [], x, h => by simp [dedupKeepLast] at h
  | [a], x, h => by simpa [dedupKeepLast] using h
  | a :: b :: rest, x, h => by
    rw [dedupKeepLast] at h
    by_cases hab : a.index = b.index
    · rw [if_pos hab] at h
      exact List.mem_cons_of_mem a (dedupKeepLast_subset (b :: rest) h)
    · rw [if_neg hab] at h
      rcases List.mem_cons.1 h with h1 | h2
      · exact h1 ▸ List.mem_cons_self a _
      · exact List.mem_cons_of_mem a (dedupKeepLast_subset (b :: rest) h2)

theorem dedupKeepLast_ne_nil : ∀ (l : List Anchor), l ≠ [] →
    dedupKeepLast l ≠ []
  | [], h => absurd rfl h
  | [a], _ => by simp [dedupKeepLast]
  | a :: b :: rest, _ => by
    rw [dedupKeepLast]
    by_cases hab : a.index = b.index
    · rw [if_pos hab]
      exact dedupKeepLast_ne_nil (b :: rest) (by simp)
    · rw [if_neg hab]; simp

theorem dedupKeepLast_cons_ne (a : Anchor) (l : List Anchor)
    (h : ∀ c ∈ l.head?, a.index ≠ c.index) :
    dedupKeepLast (a :: l) = a :: dedupKeepLast l := by
  cases l with
  | nil => rfl
  | cons c t =>
    rw [dedupKeepLast, if_neg (h c rfl)]

theorem dedupKeepLast_sorted_lt : ∀ (l : List Anchor),
    List.Sorted anchorLE l → List.Sorted anchorLT (dedupKeepLast l)
  | [], _ => by simp [dedupKeepLast]
  | [a], _ => by simp [dedupKeepLast]
  | a :: b :: rest, hs => by
    rw [dedupKeepLast]
    by_cases hab : a.index = b.index
    · rw [if_pos hab]
      exact dedupKeepLast_sorted_lt (b :: rest) hs.of_cons
    · rw [if_neg hab, List.sorted_cons]
      refine ⟨?_, dedupKeepLast_sorted_lt (b :: rest) hs.of_cons⟩
      intro c hc
      have hcmem : c ∈ b :: rest := dedupKeepLast_subset (b :: rest) hc
      have hablt : a.index < b.index :=
        lt_of_le_of_ne (List.rel_of_sorted_cons hs b (List.mem_cons_self b rest)) hab
      rcases List.mem_cons.1 hcmem with h1 | h2
      · exact h1 ▸ hablt
      · exact lt_of_lt_of_le hablt (List.rel_of_sorted_cons hs.of_cons c h2)

theorem dedupKeepLast_filter (p : Anchor → Bool)
    (hp : ∀ a b : Anchor, a.index = b.index → p a = p b) :
    ∀ (l : List Anchor), List.Sorted anchorLE l →
      (dedupKeepLast l).filter p = dedupKeepLast (l.filter p)
  | [], _ => by simp [dedupKeepLast]
  | [a], _ => by
    by_cases hpa : p a = true <;>
      simp [dedupKeepLast, List.filter, hpa]
  | a :: b :: rest, hs => by
    rw [dedupKeepLast]
    by_cases hab : a.index = b.index
    · rw [if_pos hab, dedupKeepLast_filter p hp (b :: rest) hs.of_cons,
        List.filter_cons (x := a)]
      by_cases hpa : p a = true
      · have hpb : p b = true := (hp a b hab).symm.trans hpa
        rw [if_pos hpa, List.filter_cons (x := b), if_pos hpb,
          dedupKeepLast, if_pos hab, ← List.filter_cons_of_pos hpb]
      · rw [if_neg hpa]
    · rw [if_neg hab, List.filter_cons (x := a)]
      have hablt : a.index < b.index :=
        lt_of_le_of_ne (List.rel_of_sorted_cons hs b (List.mem_cons_self b rest)) hab
      by_cases hpa : p a = true
      · rw [if_pos hpa, dedupKeepLast_filter p hp (b :: rest) hs.of_cons,
          List.filter_cons (x := a), if_pos hpa]
        by_cases hpb : p b = true
        · rw [List.filter_cons (x := b), if_pos hpb,
            dedupKeepLast_cons_ne a (b :: List.filter p rest) ?_]
          intro c hc
          have hcb : b = c := by simpa using hc
          subst hcb
          exact hab
        · rw [List.filter_cons (x := b), if_neg hpb,
            dedupKeepLast_cons_ne a (List.filter p rest) ?_]
          intro c hc
          have hcr : c ∈ List.filter p rest := List.mem_of_mem_head? hc
          have hcmem : c ∈ rest := List.mem_of_mem_filter hcr
          have hbc : b.index ≤ c.index :=
            List.rel_of_sorted_cons hs.of_cons c hcmem
          omega
      · rw [if_neg hpa, dedupKeepLast_filter p hp (b :: rest) hs.of_cons,
          List.filter_cons (x := a), if_neg hpa]

/-! ### Anchor search characterization -/

theorem findAnchor_eq_getLastD : ∀ (l : List Anchor) (q : Int) (cur : Anchor),
    List.Sorted anchorLE l →
    findAnchor l q cur = (l.filter (fun a => decide (a.index ≤ q))).getLastD cur
  | [], _, _, _ => rfl
  | a :: t, q, cur, hs => by
    rw [findAnchor, List.filter_cons]
    by_cases h : a.index ≤ q
    · rw [if_pos h, if_pos (by simpa using h),
        findAnchor_eq_getLastD t q a hs.of_cons, List.getLastD_cons]
    · rw [if_neg h, if_neg (by simpa using h)]
      have hnil : t.filter (fun a => decide (a.index ≤ q)) = [] := by
        rw [List.filter_eq_nil_iff]
        intro c hc
        have := List.rel_of_sorted_cons hs c hc
        simp only [anchorLE] at this
        simp only [decide_eq_true_eq]
        omega
      rw [hnil]
      rfl

theorem getLast?_filter_le_of_mem :
    ∀ (l : List Anchor) (x : Anchor) (k : Int),
      List.Sorted anchorLT l → x ∈ l → x.index = k →
      (l.filter (fun a => decide (a.index ≤ k))).getLast? = some x
  | [], x, k, _, hx, _ => absurd hx (List.not_mem_nil x)
  | a :: t, x, k, hs, hx, hxk => by
    rcases List.mem_cons.1 hx with h1 | h2
    · subst h1
      rw [List.filter_cons, if_pos (by simp [hxk])]
      have hnil : t.filter (fun a => decide (a.index ≤ k)) = [] := by
        rw [List.filter_eq_nil_iff]
        intro c hc
        have := List.rel_of_sorted_cons hs c hc
        simp only [anchorLT] at this
        simp only [decide_eq_true_eq]
        omega
      rw [hnil]
      rfl
    · have hax : a.index < x.index := by
        have := List.rel_of_sorted_cons hs x h2
        simpa [anchorLT] using this
      rw [List.filter_cons, if_pos (by simp; omega)]
      have htail := getLast?_filter_le_of_mem t x k hs.of_cons h2 hxk
      rcases hne : t.filter (fun a => decide (a.index ≤ k)) with _ | ⟨y, ys⟩
      · rw [hne] at htail; simp at htail
      · rw [hne] at htail
        rw [hne, List.getLast?_cons_cons]
        exact htail

/-! ### Structure of the built anchor series -/

theorem buildAnchors_frequency (s f : Int) (mv : List Move) :
    (buildAnchors s f mv).frequencyDays = f := rfl

theorem sortAnchors_sorted (l : List Anchor) :
    List.Sorted anchorLE (sortAnchors l) :=
  List.sorted_insertionSort anchorLE l

theorem sortMoves_sorted (l : List Move) :
    List.Sorted moveLE (sortMoves l) :=
  List.sorted_insertionSort moveLE l

theorem buildAnchors_sorted_lt (s f : Int) (mv : List Move) :
    List.Sorted anchorLT (buildAnchors s f mv).anchors :=
  dedupKeepLast_sorted_lt _ (sortAnchors_sorted _)

theorem sorted_le_of_sorted_lt {l : List Anchor}
    (h : List.Sorted anchorLT l) : List.Sorted anchorLE l :=
  h.imp (by intro a b hab; exact le_of_lt hab)

theorem buildAnchors_sorted_le (s f : Int) (mv : List Move) :
    List.Sorted anchorLE (buildAnchors s f mv).anchors :=
  sorted_le_of_sorted_lt (buildAnchors_sorted_lt s f mv)

theorem buildAnchors_ne_nil (s f : Int) (mv : List Move) :
    (buildAnchors s f mv).anchors ≠ [] := by
  apply dedupKeepLast_ne_nil
  intro h
  have := congrArg List.length h
  rw [sortAnchors, List.length_insertionSort] at this
  simp at this

theorem computeTreatmentDate_buildAnchors_isSome (s f : Int) (mv : List Move)
    (i : Int) : (computeTreatmentDate (buildAnchors s f mv) i).isSome := by
  rcases hA : (buildAnchors s f mv).anchors with _ | ⟨a0, rest⟩
  · exact absurd hA (buildAnchors_ne_nil s f mv)
  · simp [computeTreatmentDate, hA]

/-- Filtering the built anchor list by an index-based predicate is the same as
building from the filtered override list (with the implicit start anchor kept
iff the predicate accepts index 0). -/
theorem buildAnchors_filter (s f : Int) (mv : List Move) (p : Anchor → Bool)
    (hp : ∀ a b : Anchor, a.index = b.index → p a = p b) :
    ((buildAnchors s f mv).anchors).filter p =
      dedupKeepLast (sortAnchors
        ((if p ⟨0, s⟩ then [(⟨0, s⟩ : Anchor)] else [])
          ++ (sortMoves (mv.filter (fun m => p (toAnchor m)))).map toAnchor)) := by
  show (dedupKeepLast (sortAnchors (Anchor.mk 0 s :: (sortMoves mv).map toAnchor))).filter p = _
  rw [dedupKeepLast_filter p hp _ (sortAnchors_sorted _)]
  unfold sortAnchors
  rw [insertionSort_filter anchorLE p, List.filter_cons, List.filter_map]
  unfold sortMoves
  rw [insertionSort_filter moveLE (p ∘ toAnchor)]
  by_cases hp0 : p ⟨0, s⟩ = true
  · rw [if_pos hp0, if_pos hp0]
    rfl
  · rw [if_neg hp0, if_neg hp0]
    rfl

/-- Two series with equal frequencies whose anchor lists are sorted and agree
(nonemptily) on the anchors with index `≤ q` resolve occurrence `q`
identically. -/
theorem computeTreatmentDate_eq_of_filter (series series' : Series) (q : Int)
    (hfreq : series.frequencyDays = series'.frequencyDays)
    (hs : List.Sorted anchorLE series.anchors)
    (hs' : List.Sorted anchorLE series'.anchors)
    (hne : series.anchors ≠ []) (hne' : series'.anchors ≠ [])
    (hfil : series.anchors.filter (fun a => decide (a.index ≤ q)) =
      series'.anchors.filter (fun a => decide (a.index ≤ q)))
    (hfilne : series.anchors.filter (fun a => decide (a.index ≤ q)) ≠ []) :
    computeTreatmentDate series q = computeTreatmentDate series' q := by
  rcases hA : series.anchors with _ | ⟨a0, rest⟩
  · exact absurd hA hne
  rcases hA' : series'.anchors with _ | ⟨b0, rest'⟩
  · exact absurd hA' hne'
  rw [hA] at hs hfil hfilne
  rw [hA'] at hs' hfil
  rcases hx : ((a0 :: rest).filter (fun a => decide (a.index ≤ q))).getLast?
    with _ | x
  · rw [List.getLast?_eq_none_iff] at hx
    exact absurd hx hfilne
  · simp only [computeTreatmentDate, hA, hA']
    rw [findAnchor_eq_getLastD _ q a0 hs, findAnchor_eq_getLastD _ q b0 hs',
      ← hfil, List.getLastD_eq_getLast?, List.getLastD_eq_getLast?, hx, hfreq]
    rfl

/-! ### The upserted override list under filters -/

theorem sortMoves_idem (l : List Move) : sortMoves (sortMoves l) = sortMoves l :=
  List.Sorted.insertionSort_eq (sortMoves_sorted l)

theorem upsertMove_filter (mv : List Move) (k D : Int) (pq : Move → Bool) :
    (upsertMove mv k D).filter pq =
      sortMoves ((mv.filter (fun m => !(m.index == k))).filter pq
        ++ (if pq ⟨k, D⟩ then [(⟨k, D⟩ : Move)] else [])) := by
  unfold upsertMove sortMoves
  rw [insertionSort_filter moveLE pq, List.filter_append]
  congr 2
  by_cases h : pq ⟨k, D⟩ = true <;> simp [List.filter, h]

/-- The only anchor of the upserted series at index `k` is the upserted
override itself (the `{0, startDate}` anchor is shadowed when `k = 0`). -/
theorem buildAnchors_upsert_filter_eq (s f k D : Int) (mv : List Move) :
    ((buildAnchors s f (upsertMove mv k D)).anchors).filter
        (fun a => decide (a.index = k)) = [⟨k, D⟩] := by
  rw [buildAnchors_filter s f _ _ (by intro a b hab; simp [hab])]
  have hmv : (upsertMove mv k D).filter (fun m => decide ((toAnchor m).index = k)) =
      [⟨k, D⟩] := by
    rw [upsertMove_filter, List.filter_filter]
    have h1 : mv.filter
        (fun a => decide ((toAnchor a).index = k) && !(a.index == k)) = [] := by
      rw [List.filter_eq_nil_iff]
      intro a _
      by_cases h : a.index = k <;> simp [toAnchor, h]
    rw [h1, if_pos (by simp [toAnchor])]
    rfl
  rw [hmv]
  by_cases hk : k = 0
  · subst hk
    rw [if_pos (by simp)]
    rfl
  · rw [if_neg (by simpa using fun h => hk h.symm)]
    rfl

/-- If no override (old or upserted) sits at an index, the upserted series has
no anchor there either — provided the index is not 0. -/
theorem buildAnchors_upsert_filter_nil (s f k D : Int) (q : Int) (mv : List Move)
    (hq0 : q ≠ 0) (hqk : q ≠ k) (hnone : ∀ m ∈ mv, m.index ≠ q) :
    ((buildAnchors s f (upsertMove mv k D)).anchors).filter
        (fun a => decide (a.index = q)) = [] := by
  rw [buildAnchors_filter s f _ _ (by intro a b hab; simp [hab])]
  have hmv : (upsertMove mv k D).filter
      (fun m => decide ((toAnchor m).index = q)) = [] := by
    rw [upsertMove_filter, List.filter_filter]
    have h1 : mv.filter
        (fun a => decide ((toAnchor a).index = q) && !(a.index == k)) = [] := by
      rw [List.filter_eq_nil_iff]
      intro a ha
      have := hnone a ha
      simp [toAnchor, this]
    rw [h1, if_neg (by simp [toAnchor]; exact fun h => hqk h.symm)]
    rfl
  rw [hmv, if_neg (by simpa using fun h => hq0 h.symm)]
  rfl

/-! ### The linear (override-free) series -/

theorem computeTreatmentDate_linear (s f : Int) (i : Int) :
    computeTreatmentDate (buildAnchors s f []) i = some (s + i * f) := by
  have hA : (buildAnchors s f []).anchors = [⟨0, s⟩] := rfl
  simp only [computeTreatmentDate, hA, findAnchor, buildAnchors_frequency]
  rw [ite_self]
  simp [addDays]

/-! ## Claims -/

/-- C1: with no overrides and frequency `f ≥ 1`, occurrence `n ≥ 0` of the
anchor series built from `(startDate, f, [])` resolves to
`addDays(startDate, n*f)`, and occurrence 0 resolves to the start date. -/
theorem c1_linear_extrapolation (startDate f n : Int) (hf : 1 ≤ f)
    (hn : 0 ≤ n) :
    computeTreatmentDate (buildAnchors startDate f []) n
        = some (addDays startDate (n * f)) ∧
      computeTreatmentDate (buildAnchors startDate f []) 0 = some startDate := by
  constructor
  · rw [computeTreatmentDate_linear]
    rfl
  · rw [computeTreatmentDate_linear]
    norm_num

/-- C1 witness: the theorem applied at `startDate = 10`, `f = 14`, `n = 3`. -/
theorem c1_witness :
    computeTreatmentDate (buildAnchors 10 14 []) 3 = some (addDays 10 (3 * 14)) ∧
      computeTreatmentDate (buildAnchors 10 14 []) 0 = some 10 :=
  c1_linear_extrapolation 10 14 3 (by decide) (by decide)

/-- Resolving through the last anchor at or before the queried index. -/
theorem computeTreatmentDate_eq_anchor (series : Series) (q : Int) (x : Anchor)
    (hs : List.Sorted anchorLE series.anchors) (hne : series.anchors ≠ [])
    (hlast : (series.anchors.filter (fun a => decide (a.index ≤ q))).getLast?
      = some x) :
    computeTreatmentDate series q
      = some (addDays x.date ((q - x.index) * series.frequencyDays)) := by
  rcases hA : series.anchors with _ | ⟨a0, rest⟩
  · exact absurd hA hne
  · rw [hA] at hs hlast
    simp only [computeTreatmentDate, hA]
    rw [findAnchor_eq_getLastD _ q a0 hs, List.getLastD_eq_getLast?, hlast]
    rfl

/-- C2 counterexample: with an existing override at index 1, upserting an
override at index 0 does not make occurrence 1 resolve to `addDays(D, f)`:
the claim's second equation fails (`100 ≠ 0 + 7`). -/
theorem c2_counterexample :
    computeTreatmentDate (buildAnchors 50 7 (upsertMove [⟨1, 100⟩] 0 0)) 1
        = some 100 ∧
      (some (100 : Int)) ≠ some (addDays 0 7) := by
  constructor
  · decide
  · decide

/-- C2 (amended): after upserting the override `{index k, newDate D}` with
`k ≥ 0`, occurrence `k` resolves to `D`; and provided the original override
list has no override at index `k+1`, occurrence `k+1` resolves to
`addDays(D, f)`.  (The counterexample shows the second equation fails when an
override at `k+1` already exists.) -/
theorem c2_override_pinning_amended (start f k D : Int) (mv : List Move)
    (hk : 0 ≤ k) (hnone : ∀ m ∈ mv, m.index ≠ k + 1) :
    computeTreatmentDate (buildAnchors start f (upsertMove mv k D)) k
        = some D ∧
      computeTreatmentDate (buildAnchors start f (upsertMove mv k D)) (k + 1)
        = some (addDays D f) := by
  have hsorted := buildAnchors_sorted_lt start f (upsertMove mv k D)
  have hne := buildAnchors_ne_nil start f (upsertMove mv k D)
  have hfilk := buildAnchors_upsert_filter_eq start f k D mv
  have hmemk : (⟨k, D⟩ : Anchor) ∈ (buildAnchors start f (upsertMove mv k D)).anchors := by
    apply List.mem_of_mem_filter (p := fun a => decide (a.index = k))
    rw [hfilk]
    exact List.mem_singleton.2 rfl
  have hlastk := getLast?_filter_le_of_mem _ ⟨k, D⟩ k hsorted hmemk rfl
  constructor
  · rw [computeTreatmentDate_eq_anchor _ k ⟨k, D⟩
      (sorted_le_of_sorted_lt hsorted) hne hlastk]
    have h0 : (k - k) * (buildAnchors start f (upsertMove mv k D)).frequencyDays
        = 0 := by ring
    rw [h0]
    simp [addDays]
  · have hfilnil := buildAnchors_upsert_filter_nil start f k D (k + 1) mv
      (by omega) (by omega) hnone
    have hnotk1 : ∀ a ∈ (buildAnchors start f (upsertMove mv k D)).anchors,
        a.index ≠ k + 1 := by
      intro a ha hcontra
      have hmem : a ∈ ((buildAnchors start f (upsertMove mv k D)).anchors).filter
          (fun a => decide (a.index = k + 1)) :=
        List.mem_filter.2 ⟨ha, by simp [hcontra]⟩
      rw [hfilnil] at hmem
      exact absurd hmem (List.not_mem_nil a)
    have hfilcongr : ((buildAnchors start f (upsertMove mv k D)).anchors).filter
          (fun a => decide (a.index ≤ k + 1))
        = ((buildAnchors start f (upsertMove mv k D)).anchors).filter
          (fun a => decide (a.index ≤ k)) := by
      apply List.filter_congr
      intro a ha
      have := hnotk1 a ha
      simp only [decide_eq_decide]
      omega
    rw [computeTreatmentDate_eq_anchor _ (k + 1) ⟨k, D⟩
      (sorted_le_of_sorted_lt hsorted) hne (by rw [hfilcongr]; exact hlastk)]
    have h1 : (k + 1 - k) * (buildAnchors start f (upsertMove mv k D)).frequencyDays
        = f := by
      rw [buildAnchors_frequency]
      ring
    rw [h1]

/-- C2 witness: the amended theorem applied at `start = 3`, `f = 7`, `k = 0`,
`D = 5`, empty override list. -/
theorem c2_witness :
    computeTreatmentDate (buildAnchors 3 7 (upsertMove [] 0 5)) 0 = some 5 ∧
      computeTreatmentDate (buildAnchors 3 7 (upsertMove [] 0 5)) (0 + 1)
        = some (addDays 5 7) :=
  c2_override_pinning_amended 3 7 0 5 [] (by decide)
    (by intro m hm; exact absurd hm (List.not_mem_nil m))

/-- C6: upserting an override at index `k` leaves every occurrence `j < k`
(with `j ≥ 0`) unchanged: the resolver sees the same anchors at or below `j`. -/
theorem c6_frame_effect (start f D k j : Int) (mv : List Move)
    (h0 : 0 ≤ j) (hjk : j < k) :
    computeTreatmentDate (buildAnchors start f (upsertMove mv k D)) j
      = computeTreatmentDate (buildAnchors start f mv) j := by
  have hp : ∀ a b : Anchor, a.index = b.index →
      (fun a => decide (a.index ≤ j)) a = (fun a => decide (a.index ≤ j)) b := by
    intro a b hab
    simp [hab]
  have hupfil : (upsertMove mv k D).filter
        (fun m => decide ((toAnchor m).index ≤ j))
      = sortMoves (mv.filter (fun m => decide ((toAnchor m).index ≤ j))) := by
    rw [upsertMove_filter, List.filter_filter]
    have h1 : mv.filter
          (fun a => decide ((toAnchor a).index ≤ j) && !(a.index == k))
        = mv.filter (fun m => decide ((toAnchor m).index ≤ j)) := by
      apply List.filter_congr
      intro a _
      by_cases h : a.index ≤ j
      · have : ¬(a.index = k) := by omega
        simp [toAnchor, h, this]
      · simp [toAnchor, h]
    rw [h1, if_neg (by simp [toAnchor]; omega), List.append_nil]
  have hfil : ((buildAnchors start f (upsertMove mv k D)).anchors).filter
        (fun a => decide (a.index ≤ j))
      = ((buildAnchors start f mv).anchors).filter
        (fun a => decide (a.index ≤ j)) := by
    rw [buildAnchors_filter start f _ _ hp, buildAnchors_filter start f _ _ hp,
      hupfil, sortMoves_idem]
  apply computeTreatmentDate_eq_of_filter
    (buildAnchors start f (upsertMove mv k D)) (buildAnchors start f mv) j rfl
    (buildAnchors_sorted_le _ _ _) (buildAnchors_sorted_le _ _ _)
    (buildAnchors_ne_nil _ _ _) (buildAnchors_ne_nil _ _ _) hfil
  rw [hfil, buildAnchors_filter start f _ _ hp,
    if_pos (show decide ((Anchor.mk 0 start).index ≤ j) = true by simpa using h0)]
  apply dedupKeepLast_ne_nil
  intro hcontra
  have := congrArg List.length hcontra
  rw [sortAnchors, List.length_insertionSort] at this
  simp at this

/-- C6 witness: the theorem applied at concrete inputs (`j = 2 < k = 4`). -/
theorem c6_witness :
    computeTreatmentDate (buildAnchors 0 3 (upsertMove [⟨5, 99⟩] 4 50)) 2
      = computeTreatmentDate (buildAnchors 0 3 [⟨5, 99⟩]) 2 :=
  c6_frame_effect 0 3 50 4 2 [⟨5, 99⟩] (by decide) (by decide)

/-- Soundness and (for monotone series) completeness of the freeze walk from
index `i` with `fuel` iterations left. -/
theorem freezeLoop_spec (series : Series) (cutoff : Int) (cap : Option Int)
    (htotal : ∀ i : Int, 0 ≤ i → (computeTreatmentDate series i).isSome)
    (hmono : ∀ i j di dj : Int, 0 ≤ i → i ≤ j →
      computeTreatmentDate series i = some di →
      computeTreatmentDate series j = some dj → di ≤ dj) :
    ∀ (fuel : Nat) (i : Int), 0 ≤ i →
      ∃ L, freezeLoop series cutoff cap fuel i = some L ∧
        (∀ mv ∈ L, i ≤ mv.index ∧ mv.index < i + fuel ∧
          computeTreatmentDate series mv.index = some mv.newDateISO ∧
          mv.newDateISO ≤ cutoff ∧ (∀ c, cap = some c → mv.index < c)) ∧
        (∀ j : Int, i ≤ j → j < i + fuel → (∀ c, cap = some c → j < c) →
          ∀ d, computeTreatmentDate series j = some d → d ≤ cutoff →
            (⟨j, d⟩ : Move) ∈ L)
  | 0, i, _ => by
    refine ⟨[], rfl, by simp, ?_⟩
    intro j hij hjf
    omega
  | fuel + 1, i, hi => by
    by_cases hcap : cap.any (fun c => decide (c ≤ i)) = true
    · have hstep : freezeLoop series cutoff cap (fuel + 1) i = some [] := by
        rw [freezeLoop, if_pos hcap]
      rw [hstep]
      refine ⟨[], rfl, by simp, ?_⟩
      intro j hij hjf hjcap d _ _
      rcases cap with _ | c
      · simp at hcap
      · simp only [Option.any_some, decide_eq_true_eq] at hcap
        have := hjcap c rfl
        omega
    · rcases hd : computeTreatmentDate series i with _ | d
      · have := htotal i hi
        rw [hd] at this
        simp at this
      · have hstep : freezeLoop series cutoff cap (fuel + 1) i
            = if d ≤ cutoff then
                (freezeLoop series cutoff cap fuel (i + 1)).map
                  (fun l => ⟨i, d⟩ :: l)
              else some [] := by
          rw [freezeLoop, if_neg hcap, hd]
        rw [hstep]
        by_cases hcut : d ≤ cutoff
        · rw [if_pos hcut]
          obtain ⟨L', hL', hsound', hcomp'⟩ :=
            freezeLoop_spec series cutoff cap htotal hmono fuel (i + 1) (by omega)
          refine ⟨⟨i, d⟩ :: L', by rw [hL']; rfl, ?_, ?_⟩
          · intro mv hmv
            rcases List.mem_cons.1 hmv with h1 | h2
            · subst h1
              dsimp only
              refine ⟨le_refl i, by omega, hd, hcut, ?_⟩
              intro c hc
              rw [hc] at hcap
              simp only [Option.any_some, decide_eq_true_eq] at hcap
              omega
            · obtain ⟨ha, hb, hc', hd', he⟩ := hsound' mv h2
              exact ⟨by omega, by omega, hc', hd', he⟩
          · intro j hij hjf hjcap d' hd' hcut'
            by_cases hji : j = i
            · subst hji
              rw [hd] at hd'
              have : d = d' := by injection hd'
              subst this
              exact List.mem_cons_self _ _
            · exact List.mem_cons_of_mem _
                (hcomp' j (by omega) (by omega) hjcap d' hd' hcut')
        · rw [if_neg hcut]
          refine ⟨[], rfl, by simp, ?_⟩
          intro j hij hjf hjcap d' hd' hcut'
          have := hmono i j d d' hi hij hd hd'
          omega

/-- C3 counterexample: under a series whose dates are not monotone in the
index (an override moving a later occurrence into the past), the early exit is
not valid: `freezePastMoves` returns no overrides although occurrence 5
(within all caps) has date `-100 ≤ cutoff 0`. -/
theorem c3_counterexample :
    freezePastMoves (buildAnchors 10 1 [⟨5, -100⟩]) 0 none = some [] ∧
      computeTreatmentDate (buildAnchors 10 1 [⟨5, -100⟩]) 5 = some (-100) ∧
      (-100 : Int) ≤ 0 ∧ (5 : Int) < 1000 := by
  refine ⟨by decide, by decide, by decide, by decide⟩

/-- C3 (amended): `freezePastMoves` returns an override `{i, current date}`
for an initial segment of occurrence indices, each within the safety cap of
1000 and the cycle cap and with date `≤ cutoff`; and provided the series'
occurrence dates are monotone in the index (as the spec's early-exit argument
assumes), no occurrence within those caps whose date is `≤ cutoff` is missed. -/
theorem c3_freeze_amended (series : Series) (cutoff : Int) (cap : Option Int)
    (htotal : ∀ i : Int, 0 ≤ i → (computeTreatmentDate series i).isSome)
    (hmono : ∀ i j di dj : Int, 0 ≤ i → i ≤ j →
      computeTreatmentDate series i = some di →
      computeTreatmentDate series j = some dj → di ≤ dj) :
    ∃ L, freezePastMoves series cutoff cap = some L ∧
      (∀ mv ∈ L, 0 ≤ mv.index ∧ mv.index < 1000 ∧
        computeTreatmentDate series mv.index = some mv.newDateISO ∧
        mv.newDateISO ≤ cutoff ∧ (∀ c, cap = some c → mv.index < c)) ∧
      (∀ i : Int, 0 ≤ i → i < 1000 → (∀ c, cap = some c → i < c) →
        ∀ d, computeTreatmentDate series i = some d → d ≤ cutoff →
          (⟨i, d⟩ : Move) ∈ L) := by
  obtain ⟨L, hL, hsound, hcomp⟩ :=
    freezeLoop_spec series cutoff cap htotal hmono 1000 0 (le_refl 0)
  refine ⟨L, hL, ?_, ?_⟩
  · intro mv hmv
    obtain ⟨ha, hb, hc, hd, he⟩ := hsound mv hmv
    exact ⟨ha, by omega, hc, hd, he⟩
  · intro i h0 h1000 hcap d hd hcut
    exact hcomp i h0 (by omega) hcap d hd hcut

/-- C3 witness: the amended theorem applied to the override-free series
`(start 0, f 10)` with cutoff 25 and cycle cap 2: occurrences 0 and 1 are
frozen. -/
theorem c3_witness :
    ∃ L, freezePastMoves (buildAnchors 0 10 []) 25 (some 2) = some L ∧
      (⟨0, 0⟩ : Move) ∈ L ∧ (⟨1, 10⟩ : Move) ∈ L := by
  obtain ⟨L, hL, hsound, hcomp⟩ :=
    c3_freeze_amended (buildAnchors 0 10 []) 25 (some 2)
      (fun i _ => computeTreatmentDate_buildAnchors_isSome 0 10 [] i)
      (by
        intro i j di dj h0 hij hdi hdj
        rw [computeTreatmentDate_linear] at hdi hdj
        simp only [Option.some.injEq] at hdi hdj
        omega)
  refine ⟨L, hL, ?_, ?_⟩
  · exact hcomp 0 (by decide) (by decide)
      (by intro c hc; simp at hc; omega) 0 (by decide) (by decide)
  · exact hcomp 1 (by decide) (by decide)
      (by intro c hc; simp at hc; omega) 10 (by decide) (by decide)

/-! ### The enumerator loop -/

/-- One unfolding of the enumerator loop when the current occurrence
resolves. -/
theorem iterLoop_succ (series : Series) (fromDate toDate : Option Int)
    (cap : Option Int) (maxCount : Nat) (fuel : Nat) (i : Int) (count : Nat)
    (d : Int) (hd : computeTreatmentDate series i = some d) :
    iterLoop series fromDate toDate cap maxCount (fuel + 1) i count =
      if cap.any (fun c => decide (c ≤ i)) then some []
      else if toDate.any (fun td => decide (td < d)) then some []
      else if fromDate.any (fun fd => decide (d < fd)) then
        iterLoop series fromDate toDate cap maxCount fuel (i + 1) count
      else if maxCount ≤ count + 1 then some [(i, d)]
      else
        (iterLoop series fromDate toDate cap maxCount fuel (i + 1)
            (count + 1)).map
          (fun l => (i, d) :: l) := by
  rw [iterLoop]
  by_cases hcap : cap.any (fun c => decide (c ≤ i)) = true
  · rw [if_pos hcap, if_pos hcap]
  · rw [if_neg hcap, if_neg hcap, hd]

/-- Soundness of the loop: every yield is in the window, below the cycle cap,
resolves to its recorded date, and the yields have strictly increasing
indices. -/
theorem iterLoop_sound (series : Series) (fromDate toDate : Option Int)
    (cap : Option Int) (maxCount : Nat) :
    ∀ (fuel : Nat) (i : Int) (count : Nat) (L : List (Int × Int)),
      iterLoop series fromDate toDate cap maxCount fuel i count = some L →
      (∀ p ∈ L, i ≤ p.1 ∧ computeTreatmentDate series p.1 = some p.2 ∧
        (∀ fd, fromDate = some fd → fd ≤ p.2) ∧
        (∀ td, toDate = some td → p.2 ≤ td) ∧
        (∀ c, cap = some c → p.1 < c)) ∧
      List.Chain' (fun p q : Int × Int => p.1 < q.1) L
  | 0, i, count, L, hL => by
    have hnil : L = [] := by
      have : (some [] : Option (List (Int × Int))) = some L := hL
      simpa using this.symm
    subst hnil
    exact ⟨by simp, by simp⟩
  | fuel + 1, i, count, L, hL => by
    by_cases hcap : cap.any (fun c => decide (c ≤ i)) = true
    · have hstep : iterLoop series fromDate toDate cap maxCount (fuel + 1) i count
          = some [] := by rw [iterLoop, if_pos hcap]
      rw [hstep] at hL
      have hnil : L = [] := by simpa using hL.symm
      subst hnil
      exact ⟨by simp, by simp⟩
    · rcases hd : computeTreatmentDate series i with _ | d
      · have hstep : iterLoop series fromDate toDate cap maxCount (fuel + 1) i count
            = none := by rw [iterLoop, if_neg hcap, hd]
        rw [hstep] at hL
        exact absurd hL (by simp)
      · rw [iterLoop_succ series fromDate toDate cap maxCount fuel i count d hd,
          if_neg hcap] at hL
        by_cases htd : toDate.any (fun td => decide (td < d)) = true
        · rw [if_pos htd] at hL
          have hnil : L = [] := by simpa using hL.symm
          subst hnil
          exact ⟨by simp, by simp⟩
        · rw [if_neg htd] at hL
          by_cases hfd : fromDate.any (fun fd => decide (d < fd)) = true
          · rw [if_pos hfd] at hL
            obtain ⟨hsound, hchain⟩ :=
              iterLoop_sound series fromDate toDate cap maxCount fuel (i + 1)
                count L hL
            refine ⟨?_, hchain⟩
            intro p hp
            obtain ⟨ha, hb, hc, hd', he⟩ := hsound p hp
            exact ⟨by omega, hb, hc, hd', he⟩
          · rw [if_neg hfd] at hL
            have hwin : (∀ fd', fromDate = some fd' → fd' ≤ d) ∧
                (∀ td', toDate = some td' → d ≤ td') ∧
                (∀ c, cap = some c → i < c) := by
              refine ⟨?_, ?_, ?_⟩
              · intro fd' hfd'
                rw [hfd'] at hfd
                simp only [Option.any_some, decide_eq_true_eq] at hfd
                omega
              · intro td' htd'
                rw [htd'] at htd
                simp only [Option.any_some, decide_eq_true_eq] at htd
                omega
              · intro c hc
                rw [hc] at hcap
                simp only [Option.any_some, decide_eq_true_eq] at hcap
                omega
            by_cases hmax : maxCount ≤ count + 1
            · rw [if_pos hmax] at hL
              have hone : L = [(i, d)] := by simpa using hL.symm
              subst hone
              refine ⟨?_, by simp⟩
              intro p hp
              have hpe : p = (i, d) := by simpa using hp
              subst hpe
              exact ⟨le_refl i, hd, hwin.1, hwin.2.1, hwin.2.2⟩
            · rw [if_neg hmax] at hL
              rcases hrec : iterLoop series fromDate toDate cap maxCount fuel
                  (i + 1) (count + 1) with _ | L'
              · rw [hrec] at hL
                exact absurd hL (by simp)
              · rw [hrec] at hL
                have hLL : L = (i, d) :: L' := by simpa using hL.symm
                subst hLL
                obtain ⟨hsound', hchain'⟩ :=
                  iterLoop_sound series fromDate toDate cap maxCount fuel (i + 1)
                    (count + 1) L' hrec
                constructor
                · intro p hp
                  rcases List.mem_cons.1 hp with h1 | h2
                  · subst h1
                    exact ⟨le_refl i, hd, hwin.1, hwin.2.1, hwin.2.2⟩
                  · obtain ⟨ha, hb, hc, hd', he⟩ := hsound' p h2
                    exact ⟨by omega, hb, hc, hd', he⟩
                · rw [List.chain'_cons']
                  refine ⟨?_, hchain'⟩
                  intro y hy
                  have hymem := List.mem_of_mem_head? hy
                  have h1 := (hsound' y hymem).1
                  dsimp only
                  omega

/-- Upgrading a chain along a pairwise implication that may use membership. -/
theorem chain'_imp_mem {α : Type} {R S : α → α → Prop} :
    ∀ {L : List α}, (∀ a ∈ L, ∀ b ∈ L, R a b → S a b) →
      List.Chain' R L → List.Chain' S L
  | [], _, _ => trivial
  | a :: t, h, hc => by
    rw [List.chain'_cons'] at hc ⊢
    refine ⟨?_, chain'_imp_mem
      (fun x hx y hy => h x (List.mem_cons_of_mem a hx) y
        (List.mem_cons_of_mem a hy)) hc.2⟩
    intro y hy
    exact h a (List.mem_cons_self a t) y
      (List.mem_cons_of_mem a (List.mem_of_mem_head? hy)) (hc.1 y hy)

/-- C5 counterexample: with a back-dated override the series is not monotone
and the enumerator's yields are not in ascending date order (`1 > -50`),
refuting the claim's strict-ascending-order clause as stated for every
series. -/
theorem c5_counterexample :
    iterateTreatments (buildAnchors 0 1 [⟨2, -50⟩]) (some (-100)) (some 100) 5
        none = some [(0, 0), (1, 1), (2, -50), (3, -49), (4, -48)] ∧
      ¬ List.Chain' (fun p q : Int × Int => p.2 < q.2)
          [(0, 0), (1, 1), (2, -50), (3, -49), (4, -48)] := by
  constructor
  · decide
  · intro h
    rw [List.chain'_cons, List.chain'_cons] at h
    exact absurd h.2.1 (by decide)

/-- C5 (amended): every occurrence yielded by the windowed enumerator has its
date within `[fromDate, toDate]` and its index below the cycle cap (for every
series); and the yields are in strictly ascending date order provided the
series has no overrides and frequency `≥ 1` (dates then being strictly
monotone in the index — the counterexample shows this clause fails under a
back-dated override). -/
theorem c5_windowing_amended (series : Series) (fd td : Int) (maxCount : Nat)
    (cap : Option Int) (L : List (Int × Int))
    (hL : iterateTreatments series (some fd) (some td) maxCount cap = some L) :
    (∀ p ∈ L, fd ≤ p.2 ∧ p.2 ≤ td ∧ (∀ c, cap = some c → p.1 < c)) ∧
      (∀ s f, series = buildAnchors s f [] → 1 ≤ f →
        L.Chain' (fun p q : Int × Int => p.2 < q.2)) := by
  rcases h0 : computeTreatmentDate series 0 with _ | first
  · rw [iterateTreatments, h0] at hL
    exact absurd hL (by simp)
  · rw [iterateTreatments, h0] at hL
    obtain ⟨hsound, hchain⟩ :=
      iterLoop_sound series (some fd) (some td) cap maxCount maxCount _ 0 L hL
    constructor
    · intro p hp
      obtain ⟨_, _, hfd', htd', hcap'⟩ := hsound p hp
      exact ⟨hfd' fd rfl, htd' td rfl, hcap'⟩
    · intro s f hser hf
      subst hser
      refine chain'_imp_mem ?_ hchain
      intro p hp q hq hpq
      have hp2 := (hsound p hp).2.1
      have hq2 := (hsound q hq).2.1
      rw [computeTreatmentDate_linear] at hp2 hq2
      simp only [Option.some.injEq] at hp2 hq2
      have hmul : p.1 * f < q.1 * f :=
        mul_lt_mul_of_pos_right hpq (by omega)
      rw [← hp2, ← hq2]
      linarith

/-- C5 witness: the amended theorem applied to the concrete no-override series
`(start 0, f 2)` over window `[1, 9]` with cycle cap 4. -/
theorem c5_witness :
    iterateTreatments (buildAnchors 0 2 []) (some 1) (some 9) 10 (some 4)
        = some [(1, 2), (2, 4), (3, 6)] ∧
      (1 : Int) ≤ 2 ∧ (6 : Int) ≤ 9 ∧ (3 : Int) < 4 ∧
      List.Chain' (fun p q : Int × Int => p.2 < q.2) [(1, 2), (2, 4), (3, 6)] := by
  have h := c5_windowing_amended (buildAnchors 0 2 []) 1 9 10 (some 4)
    [(1, 2), (2, 4), (3, 6)] (by decide)
  refine ⟨by decide, ?_, ?_, ?_, ?_⟩
  · exact (h.1 (1, 2) (by decide)).1
  · exact (h.1 (3, 6) (by decide)).2.1
  · exact (h.1 (3, 6) (by decide)).2.2 4 rfl
  · exact h.2 0 2 rfl (by decide)

/-! ### Integer ranges -/

theorem intRange_empty {a b : Int} (h : b ≤ a) : intRange a b = [] := by
  unfold intRange
  have h0 : (b - a).toNat = 0 := by omega
  rw [h0]
  rfl

theorem intRange_cons {a b : Int} (h : a < b) :
    intRange a b = a :: intRange (a + 1) b := by
  unfold intRange
  have h1 : (b - a).toNat = (b - (a + 1)).toNat + 1 := by omega
  rw [h1, List.range_succ_eq_map, List.map_cons, List.map_map]
  have h2 : ((fun k : Nat => a + (k : Int)) ∘ Nat.succ)
      = fun k : Nat => (a + 1) + (k : Int) := by
    funext k
    simp only [Function.comp, Nat.succ_eq_add_one]
    push_cast
    ring
  rw [h2]
  norm_num

/-- The enumerator loop on an override-free series, characterized: given the
window thresholds `lo` (first index with date `≥ fromDate`) and `stp` (first
index at which the walk stops), and enough iteration and yield budget, the
loop from index `i` yields exactly the occurrences with indices in
`[max i lo, stp)`. -/
theorem iterLoop_linear (s f fd td : Int) (cap : Option Int) (maxCount : Nat)
    (lo stp : Int)
    (hlo : ∀ j : Int, fd ≤ s + j * f ↔ lo ≤ j)
    (hstp : ∀ j : Int,
      (cap.any (fun c => decide (c ≤ j)) = true ∨ td < s + j * f) ↔ stp ≤ j) :
    ∀ (fuel : Nat) (i : Int) (count : Nat),
      stp ≤ i + fuel →
      count + (stp - max i lo).toNat ≤ maxCount →
      iterLoop (buildAnchors s f []) (some fd) (some td) cap maxCount fuel i
          count
        = some ((intRange (max i lo) stp).map (fun j => (j, s + j * f)))
  | 0, i, count, hfuel, _ => by
    rw [intRange_empty (show stp ≤ max i lo by simp at hfuel; omega)]
    rfl
  | fuel + 1, i, count, hfuel, hcount => by
    by_cases hstop : stp ≤ i
    · rw [intRange_empty (show stp ≤ max i lo by omega)]
      have hbreak := (hstp i).2 hstop
      by_cases hcap : cap.any (fun c => decide (c ≤ i)) = true
      · rw [iterLoop, if_pos hcap]
        rfl
      · have htdlt : td < s + i * f := by
          rcases hbreak with h | h
          · exact absurd h hcap
          · exact h
        rw [iterLoop_succ _ _ _ _ _ fuel i count _
            (computeTreatmentDate_linear s f i), if_neg hcap,
          if_pos (show (some td).any (fun t => decide (t < s + i * f)) = true by
            simpa using htdlt)]
        rfl
    · have hnb : ¬(cap.any (fun c => decide (c ≤ i)) = true ∨ td < s + i * f) :=
        fun h => absurd ((hstp i).1 h) hstop
      have hnocap : ¬(cap.any (fun c => decide (c ≤ i)) = true) :=
        fun h => hnb (Or.inl h)
      have hnotd : ¬(td < s + i * f) := fun h => hnb (Or.inr h)
      rw [iterLoop_succ _ _ _ _ _ fuel i count _
          (computeTreatmentDate_linear s f i), if_neg hnocap,
        if_neg (show ¬((some td).any (fun t => decide (t < s + i * f)) = true) by
          simpa using hnotd)]
      by_cases hlt : i < lo
      · have hdlt : s + i * f < fd := by
          by_contra hge
          push_neg at hge
          have := (hlo i).1 hge
          omega
        rw [if_pos (show (some fd).any (fun x => decide (s + i * f < x)) = true by
            simpa using hdlt)]
        have heq : max i lo = max (i + 1) lo := by omega
        rw [heq]
        exact iterLoop_linear s f fd td cap maxCount lo stp hlo hstp fuel (i + 1)
          count (by omega) (by omega)
      · push_neg at hlt
        have hdge : fd ≤ s + i * f := (hlo i).2 hlt
        rw [if_neg (show ¬((some fd).any (fun x => decide (s + i * f < x)) = true) by
            simp; omega)]
        have hmaxi : max i lo = i := by omega
        rw [hmaxi] at hcount ⊢
        rw [intRange_cons (show i < stp by omega)]
        by_cases hmax : maxCount ≤ count + 1
        · rw [if_pos hmax]
          have hstp1 : stp = i + 1 := by omega
          rw [hstp1, intRange_empty (le_refl (i + 1))]
          rfl
        · rw [if_neg hmax]
          have hmaxi1 : max (i + 1) lo = i + 1 := by omega
          have hrec := iterLoop_linear s f fd td cap maxCount lo stp hlo hstp
            fuel (i + 1) (count + 1) (by omega) (by rw [hmaxi1]; omega)
          rw [hmaxi1] at hrec
          rw [hrec]
          rfl

theorem max_between_eq {x lo : Int} (h0 : 0 ≤ x) (hle : x ≤ max 0 lo) :
    max x lo = max 0 lo := by omega

theorem count_budget {stp m : Int} {mc : Nat} (hm : 0 ≤ m)
    (hs : stp ≤ (mc : Int)) : 0 + (stp - m).toNat ≤ mc := by omega

/-- C4 counterexample: over the override-free series `(start 0, f 1)` with
window `[4, 1000000]` and `maxCount = 10`, the estimated enumerator yields
seven occurrences (indices 4–10) while the same loop started at index 0 spends
iterations skipping indices 0–3 and yields only six (indices 4–9). -/
theorem c4_counterexample :
    iterateTreatments (buildAnchors 0 1 []) (some 4) (some 1000000) 10 none
      ≠ iterateFromZero (buildAnchors 0 1 []) (some 4) (some 1000000) 10 none := by
  decide

/-- C4 (amended): for a series with no overrides and frequency `f ≥ 1`, the
estimated-start enumerator and the from-zero scan yield identical sequences
whenever the walk stops on the cycle cap or the window's upper bound within
the `maxCount` iteration budget (`linStop ≤ maxCount`); both then yield
exactly the occurrences inside the window.  (The counterexample shows the
claim as stated — for every series, window and budget — is false.) -/
theorem c4_enumerator_equiv_amended (s f fd td : Int) (cap : Option Int)
    (maxCount : Nat) (hf : 1 ≤ f)
    (hstp : linStop s f td cap ≤ (maxCount : Int)) :
    iterateTreatments (buildAnchors s f []) (some fd) (some td) maxCount cap
      = iterateFromZero (buildAnchors s f []) (some fd) (some td) maxCount cap := by
  have hf0 : (0 : Int) < f := by omega
  have hlo : ∀ j : Int, fd ≤ s + j * f ↔ linLo s f fd ≤ j := by
    intro j
    have h1 : (fd - s - 1) / f < j ↔ fd - s - 1 < j * f :=
      Int.ediv_lt_iff_lt_mul hf0
    unfold linLo
    rw [show (fd - s - 1) / f + 1 ≤ j ↔ (fd - s - 1) / f < j by omega, h1]
    constructor <;> intro h <;> linarith
  have htdc : ∀ j : Int, td < s + j * f ↔ (td - s) / f < j := by
    intro j
    rw [Int.ediv_lt_iff_lt_mul hf0]
    constructor <;> intro h <;> linarith
  have hstpc : ∀ j : Int,
      (cap.any (fun c => decide (c ≤ j)) = true ∨ td < s + j * f) ↔
        linStop s f td cap ≤ j := by
    intro j
    rcases cap with _ | c
    · simp only [Option.any_none, Bool.false_eq_true, false_or, linStop]
      rw [htdc j]
      omega
    · simp only [Option.any_some, decide_eq_true_eq, linStop]
      rw [htdc j]
      generalize (td - s) / f = q
      omega
  have hunf1 : iterateTreatments (buildAnchors s f []) (some fd) (some td)
        maxCount cap
      = iterLoop (buildAnchors s f []) (some fd) (some td) cap maxCount maxCount
          (max 0 (Int.fdiv (diffDays (s + 0 * f) fd) f - 3)) 0 := by
    rw [iterateTreatments, computeTreatmentDate_linear]
    rfl
  have hunf0 : iterateFromZero (buildAnchors s f []) (some fd) (some td)
        maxCount cap
      = iterLoop (buildAnchors s f []) (some fd) (some td) cap maxCount maxCount
          0 0 := by
    rw [iterateFromZero, computeTreatmentDate_linear]
  have hdiff : diffDays (s + 0 * f) fd = fd - s := by
    simp only [diffDays]
    ring
  have hest : Int.fdiv (diffDays (s + 0 * f) fd) f - 3 ≤ linLo s f fd := by
    rw [hdiff, Int.fdiv_eq_ediv _ (by omega : (0 : Int) ≤ f)]
    unfold linLo
    have h1 : (fd - s - f) / f = (fd - s) / f - 1 := by
      have h2 := Int.add_mul_ediv_right (fd - s) (-1) (show f ≠ 0 by omega)
      have h3 : fd - s + (-1) * f = fd - s - f := by ring
      rw [h3] at h2
      omega
    have h2 : (fd - s - f) / f ≤ (fd - s - 1) / f :=
      Int.ediv_le_ediv hf0 (by omega)
    omega
  have hSI0 : (0 : Int) ≤ max 0 (Int.fdiv (diffDays (s + 0 * f) fd) f - 3) :=
    le_max_left _ _
  have hSIle : max 0 (Int.fdiv (diffDays (s + 0 * f) fd) f - 3)
      ≤ max 0 (linLo s f fd) :=
    max_le_max (le_refl 0) hest
  have hmaxeq : max (max 0 (Int.fdiv (diffDays (s + 0 * f) fd) f - 3))
        (linLo s f fd)
      = max 0 (linLo s f fd) := max_between_eq hSI0 hSIle
  rw [hunf1, hunf0,
    iterLoop_linear s f fd td cap maxCount (linLo s f fd) (linStop s f td cap)
      hlo hstpc maxCount _ 0
      (by linarith)
      (count_budget (le_trans hSI0 (le_max_left _ _)) hstp),
    iterLoop_linear s f fd td cap maxCount (linLo s f fd) (linStop s f td cap)
      hlo hstpc maxCount 0 0
      (by linarith)
      (count_budget (le_max_left _ _) hstp),
    hmaxeq]

/-- C4 witness: the amended theorem applied to the series `(start 0, f 2)`
with window `[3, 9]`, `maxCount = 10`, no cycle cap. -/
theorem c4_witness :
    iterateTreatments (buildAnchors 0 2 []) (some 3) (some 9) 10 none
      = iterateFromZero (buildAnchors 0 2 []) (some 3) (some 9) 10 none :=
  c4_enumerator_equiv_amended 0 2 3 9 none 10 (by decide) (by decide)

/-- C7 counterexample: `buildEvents` output depends on the ambient clock (the
first of the current month shifts the display window), and `generateICS`
output depends on the stored locale (summary labels) and the ambient clock
(`DTSTAMP`) — so not every listed engine function is free of ambient-state
dependence. -/
theorem c7_counterexample :
    buildEvents (some ⟨0, 1000000, none, [], [], "X"⟩) [] 12 0
        ≠ buildEvents (some ⟨0, 1000000, none, [], [], "X"⟩) [] 12 (-1000) ∧
      generateICS [treatmentEvent 0 0] "X" Locale.en 0
        ≠ generateICS [treatmentEvent 0 0] "X" Locale.nl 0 ∧
      generateICS [treatmentEvent 0 0] "X" Locale.en 0
        ≠ generateICS [treatmentEvent 0 0] "X" Locale.en 5 := by
  refine ⟨by decide, by decide, by decide⟩

/-- C7 (amended): each engine function is a deterministic transform of its
explicit inputs together with its ambient readings — equal arguments (and, for
`buildEvents`, an equal clock reading; for `generateICS`, equal clock and
locale readings) give equal outputs.  The five functions that read no ambient
state are deterministic in their explicit arguments alone. -/
theorem c7_determinism_amended :
    (∀ s₁ s₂ f₁ f₂ : Int, ∀ m₁ m₂ : List Move, s₁ = s₂ → f₁ = f₂ → m₁ = m₂ →
      buildAnchors s₁ f₁ m₁ = buildAnchors s₂ f₂ m₂) ∧
    (∀ se₁ se₂ : Series, ∀ i₁ i₂ : Int, se₁ = se₂ → i₁ = i₂ →
      computeTreatmentDate se₁ i₁ = computeTreatmentDate se₂ i₂) ∧
    (∀ se₁ se₂ : Series, ∀ fd₁ fd₂ td₁ td₂ : Option Int, ∀ mc₁ mc₂ : Nat,
      ∀ cap₁ cap₂ : Option Int, se₁ = se₂ → fd₁ = fd₂ → td₁ = td₂ →
      mc₁ = mc₂ → cap₁ = cap₂ →
      iterateTreatments se₁ fd₁ td₁ mc₁ cap₁
        = iterateTreatments se₂ fd₂ td₂ mc₂ cap₂) ∧
    (∀ st₁ st₂ : Option Settings, ∀ m₁ m₂ : List Move, ∀ ma₁ ma₂ ms₁ ms₂ : Int,
      st₁ = st₂ → m₁ = m₂ → ma₁ = ma₂ → ms₁ = ms₂ →
      buildEvents st₁ m₁ ma₁ ms₁ = buildEvents st₂ m₂ ma₂ ms₂) ∧
    (∀ b₁ b₂ a₁ a₂ : List Move, b₁ = b₂ → a₁ = a₂ →
      mergeMoves b₁ a₁ = mergeMoves b₂ a₂) ∧
    (∀ se₁ se₂ : Series, ∀ c₁ c₂ : Int, ∀ cap₁ cap₂ : Option Int,
      se₁ = se₂ → c₁ = c₂ → cap₁ = cap₂ →
      freezePastMoves se₁ c₁ cap₁ = freezePastMoves se₂ c₂ cap₂) ∧
    (∀ e₁ e₂ : List Event, ∀ n₁ n₂ : String, ∀ l₁ l₂ : Locale, ∀ d₁ d₂ : Int,
      e₁ = e₂ → n₁ = n₂ → l₁ = l₂ → d₁ = d₂ →
      generateICS e₁ n₁ l₁ d₁ = generateICS e₂ n₂ l₂ d₂) := by
  refine ⟨?_, ?_, ?_, ?_, ?_, ?_, ?_⟩
  · intro s₁ s₂ f₁ f₂ m₁ m₂ h1 h2 h3
    subst h1; subst h2; subst h3; rfl
  · intro se₁ se₂ i₁ i₂ h1 h2
    subst h1; subst h2; rfl
  · intro se₁ se₂ fd₁ fd₂ td₁ td₂ mc₁ mc₂ cap₁ cap₂ h1 h2 h3 h4 h5
    subst h1; subst h2; subst h3; subst h4; subst h5; rfl
  · intro st₁ st₂ m₁ m₂ ma₁ ma₂ ms₁ ms₂ h1 h2 h3 h4
    subst h1; subst h2; subst h3; subst h4; rfl
  · intro b₁ b₂ a₁ a₂ h1 h2
    subst h1; subst h2; rfl
  · intro se₁ se₂ c₁ c₂ cap₁ cap₂ h1 h2 h3
    subst h1; subst h2; subst h3; rfl
  · intro e₁ e₂ n₁ n₂ l₁ l₂ d₁ d₂ h1 h2 h3 h4
    subst h1; subst h2; subst h3; subst h4; rfl

/-- C7 witness: the amended theorem's congruences applied at concrete
arguments. -/
theorem c7_witness :
    buildAnchors 0 1 [] = buildAnchors 0 1 [] ∧
      freezePastMoves (buildAnchors 0 1 []) 5 none
        = freezePastMoves (buildAnchors 0 1 []) 5 none :=
  ⟨c7_determinism_amended.1 0 0 1 1 [] [] rfl rfl rfl,
    c7_determinism_amended.2.2.2.2.2.1 (buildAnchors 0 1 [])
      (buildAnchors 0 1 []) 5 5 none none rfl rfl rfl⟩

/-- C8: day-indicator mapping (`1 ↦ 0`, `2 ↦ 1`, `-1 ↦ -1`, every indicator
`≥ 1` maps to itself minus one, every negative indicator to itself),
normalization `0 ↦ 1`, normalization never yields 0, and every rule persisted
by the plan-editor save path has a nonzero day indicator. -/
theorem c8_day_indicator :
    dayToOffset 1 = 0 ∧ dayToOffset 2 = 1 ∧ dayToOffset (-1) = -1 ∧
      (∀ d : Int, 1 ≤ d → dayToOffset d = d - 1) ∧
      (∀ d : Int, d < 0 → dayToOffset d = d) ∧
      normalizeDayInput (.intVal 0) = 1 ∧
      (∀ raw : DayInput, normalizeDayInput raw ≠ 0) ∧
      (∀ rules : List Rule, ∀ r ∈ savePlanMedRules rules, r.day ≠ 0) := by
  refine ⟨rfl, rfl, rfl, ?_, ?_, rfl, ?_, ?_⟩
  · intro d hd
    simp [dayToOffset, hd]
  · intro d hd
    rw [dayToOffset, if_neg (by omega)]
  · intro raw
    rcases raw with n | _
    · simp only [normalizeDayInput]
      split_ifs with h
      · decide
      · exact h
    · decide
  · intro rules r hr
    simp only [savePlanMedRules, List.mem_map] at hr
    obtain ⟨r0, _, hr0⟩ := hr
    subst hr0
    show normalizeDayInput (.intVal r0.day) ≠ 0
    simp only [normalizeDayInput]
    split_ifs with h
    · decide
    · exact h

/-- C8 witness: the theorem's quantified clauses applied at concrete
indicators. -/
theorem c8_witness :
    dayToOffset 5 = 4 ∧ dayToOffset (-3) = -3 ∧
      normalizeDayInput (.intVal 7) ≠ 0 :=
  ⟨c8_day_indicator.2.2.2.1 5 (by decide),
    c8_day_indicator.2.2.2.2.1 (-3) (by decide),
    c8_day_indicator.2.2.2.2.2.2.1 (.intVal 7)⟩

/-- C9: in the generated ICS document, every event taking the timed branch is
rendered with `DTSTART` its date-time and `DTEND` exactly one hour later, and
every other event as a whole-day block with `DTSTART` its date and exclusive
`DTEND` the following day. -/
theorem c9_ics_blocks (events : List Event) (name : String) (loc : Locale)
    (nowDay : Int) (ev : Event) (hev : ev ∈ events) :
    (evTimed ev = true →
      ICSLine.dtstartTimed ev.date ∈ generateICS events name loc nowDay ∧
        ICSLine.dtendTimed (addMinutesDT ev.date 60)
          ∈ generateICS events name loc nowDay) ∧
      (evTimed ev = false →
        ICSLine.dtstartDate ev.date.day ∈ generateICS events name loc nowDay ∧
          ICSLine.dtendDate (addDays ev.date.day 1)
            ∈ generateICS events name loc nowDay) := by
  have hmem : ∀ l ∈ eventICSLines loc nowDay ev,
      l ∈ generateICS events name loc nowDay := by
    intro l hl
    simp only [generateICS]
    apply List.mem_append_left
    apply List.mem_append_right
    rw [List.mem_flatMap]
    exact ⟨ev, hev, hl⟩
  constructor
  · intro ht
    constructor <;> apply hmem <;> simp [eventICSLines, ht]
  · intro hf
    constructor <;> apply hmem <;> simp [eventICSLines, hf]

/-- C9 witness: the theorem applied to a two-event document — a timed one-off
at 10:00 and an (all-day) treatment event. -/
theorem c9_witness :
    (ICSLine.dtstartTimed ⟨100, 600⟩
        ∈ generateICS [⟨"one-x", "T", .oneoff ⟨"x", 100, some (10, 0), "T", "",
            .appointment⟩, ⟨100, 600⟩⟩, treatmentEvent 0 50] "C" Locale.en 7 ∧
      ICSLine.dtendTimed (addMinutesDT ⟨100, 600⟩ 60)
        ∈ generateICS [⟨"one-x", "T", .oneoff ⟨"x", 100, some (10, 0), "T", "",
            .appointment⟩, ⟨100, 600⟩⟩, treatmentEvent 0 50] "C" Locale.en 7) ∧
      (ICSLine.dtstartDate 50
          ∈ generateICS [⟨"one-x", "T", .oneoff ⟨"x", 100, some (10, 0), "T", "",
              .appointment⟩, ⟨100, 600⟩⟩, treatmentEvent 0 50] "C" Locale.en 7 ∧
        ICSLine.dtendDate (addDays 50 1)
          ∈ generateICS [⟨"one-x", "T", .oneoff ⟨"x", 100, some (10, 0), "T", "",
              .appointment⟩, ⟨100, 600⟩⟩, treatmentEvent 0 50] "C" Locale.en 7) :=
  ⟨(c9_ics_blocks _ "C" Locale.en 7
      ⟨"one-x", "T", .oneoff ⟨"x", 100, some (10, 0), "T", "", .appointment⟩,
        ⟨100, 600⟩⟩ (by decide)).1 rfl,
    (c9_ics_blocks _ "C" Locale.en 7 (treatmentEvent 0 50) (by decide)).2 rfl⟩

/-- C10: in `buildEvents`, a rule whose `enabled` field is absent is treated
as enabled — for every enumerated occurrence its action event is in the
output — and every action event in the output stems from a rule that is not
(present and) disabled. -/
theorem c10_enabled_default (s : Settings) (moves : List Move) (ma ms : Int) :
    (∀ r ∈ s.medRules, r.enabled ≠ some false →
      ∀ p ∈ buildEventsOccs s moves ma ms,
        actionEvent p.1 p.2 r ∈ buildEvents (some s) moves ma ms) ∧
      (∀ ev ∈ buildEvents (some s) moves ma ms, ∀ i r,
        ev.kind = EvKind.action i r → r.enabled ≠ some false) := by
  constructor
  · intro r hr hen p hp
    simp only [buildEvents]
    rw [List.mem_insertionSort]
    apply List.mem_append_left
    rw [List.mem_flatMap]
    refine ⟨p, hp, ?_⟩
    simp only [occurrenceEvents]
    apply List.mem_cons_of_mem
    refine List.mem_map.2 ⟨r, List.mem_filter.2 ⟨hr, ?_⟩, rfl⟩
    simp only [ruleKept, Bool.not_eq_true', beq_eq_false_iff_ne, ne_eq]
    exact hen
  · intro ev hev i r hkind
    simp only [buildEvents] at hev
    rw [List.mem_insertionSort] at hev
    rcases List.mem_append.1 hev with h1 | h2
    · rw [List.mem_flatMap] at h1
      obtain ⟨p, _, hmem⟩ := h1
      simp only [occurrenceEvents] at hmem
      rcases List.mem_cons.1 hmem with he | he
      · subst he
        simp [treatmentEvent] at hkind
      · rw [List.mem_map] at he
        obtain ⟨r0, hr0, hev0⟩ := he
        subst hev0
        simp only [actionEvent] at hkind
        have hr0r : r0 = r := by
          injection hkind with h1' h2'
        rw [← hr0r]
        have := (List.mem_filter.1 hr0).2
        simp only [ruleKept, Bool.not_eq_true', beq_eq_false_iff_ne, ne_eq]
          at this
        exact this
    · rw [List.mem_map] at h2
      obtain ⟨o, _, hev0⟩ := h2
      subst hev0
      simp [oneOffEvent] at hkind

/-- C10 witness: a rule with `enabled` absent produces its action event for
the enumerated occurrence `(0, 0)`. -/
theorem c10_witness :
    actionEvent 0 0 ⟨"r1", 2, "t", "", none, none⟩
      ∈ buildEvents
          (some ⟨0, 40, none, [⟨"r1", 2, "t", "", none, none⟩], [], "X"⟩)
          [] 1 0 :=
  (c10_enabled_default ⟨0, 40, none, [⟨"r1", 2, "t", "", none, none⟩], [], "X"⟩
      [] 1 0).1
    ⟨"r1", 2, "t", "", none, none⟩ (by decide) (by decide) (0, 0) (by decide)

end ChemoCare
